import Mathlib

/-
Shallow embedding of jfrikker/db-migrate (src/lib.rs, src/types.rs,
src/sync/mod.rs) and proofs of the specification claims.

Strings are modelled as lists of characters. Rust's `HashMap` is modelled as
an association list with insertion-order iteration: `insert` overwrites the
existing entry for a key in place and appends unknown keys at the end. The
claims proved below only depend on the key/value content of the maps and on
the explicitly sorted output, both of which are independent of the arbitrary
iteration order of a real hash map.
-/

namespace DbMigrate

/-! ## Version model (src/lib.rs) -/

/-- Splitting a character list on the dot separator, mirroring Rust's
`str::split(".")`: the empty input yields a single empty piece, and a
trailing dot yields a trailing empty piece. -/
def splitOnDot : List Char → List (List Char)
  | [] => [[]]
  | c :: rest =>
    match splitOnDot rest with
    | [] => [[]]
    | g :: gs => if c = '.' then [] :: g :: gs else (c :: g) :: gs

/-- Joining pieces with dots, mirroring the `Display` implementation for
`Version`: the first piece is written plainly, every later piece is preceded
by a dot. -/
def joinDot : List (List Char) → List Char
  | [] => []
  | [g] => g
  | g :: g2 :: gs => g ++ '.' :: joinDot (g2 :: gs)

/-- Numeric value of an ASCII decimal digit character. -/
def charDigit (c : Char) : Nat := c.toNat - 48

/-- Model of Rust's `u32::from_str`: an optional leading plus sign followed by
one or more ASCII digits, whose value must fit into 32 bits. -/
def parseU32 (s : List Char) : Option Nat :=
  let digits := if s.head? = some '+' then s.tail else s
  if digits.isEmpty then none
  else if digits.all Char.isDigit then
    let n := digits.foldl (fun acc c => acc * 10 + charDigit c) 0
    if n < 2 ^ 32 then some n else none
  else none

/-- The `Version` struct of src/lib.rs: a sequence of numeric components. -/
structure Version where
  parts : List Nat
deriving DecidableEq

/-- Collecting the component parses of a version string, mirroring
`collect::<Result<Vec<u32>, ParseIntError>>()`: the first failing component
makes the whole parse fail, with no partial result. -/
def parseParts : List (List Char) → Option (List Nat)
  | [] => some []
  | c :: cs =>
    match parseU32 c, parseParts cs with
    | some n, some ns => some (n :: ns)
    | _, _ => none

/-- `Version::from_str`: split on dots and parse every piece as a `u32`. -/
def parseVersion (s : List Char) : Option Version :=
  (parseParts (splitOnDot s)).map Version.mk

/-- Decimal digit characters of `n`, most significant first, computed with
explicit fuel so the recursion is structural; with fuel at least `n` this
produces all digits of `n` (and nothing for `n = 0`). -/
def natToCharsAux : Nat → Nat → List Char
  | 0, _ => []
  | fuel + 1, n =>
    if n = 0 then [] else natToCharsAux fuel (n / 10) ++ [Nat.digitChar (n % 10)]

/-- Canonical decimal text of a number, as produced by Rust's `Display` for
`u32` (no sign, no leading zeros, a single `0` for zero). -/
def natToChars (n : Nat) : List Char :=
  if n = 0 then ['0'] else natToCharsAux n n

/-- The `Display` implementation for `Version`: components joined by dots. -/
def formatVersion (v : Version) : List Char := joinDot (v.parts.map natToChars)

/-- The derived `Ord` on `Version`, which is the lexicographic order on the
component vectors: componentwise numeric comparison, first difference decides,
and a strict prefix orders before the longer sequence. -/
def compareList : List Nat → List Nat → Ordering
  | [], [] => .eq
  | [], _ :: _ => .lt
  | _ :: _, [] => .gt
  | a :: as, b :: bs =>
    match compare a b with
    | .eq => compareList as bs
    | o => o

/-- Comparison of two `Version` values via the derived `Ord` on their parts. -/
def versionCompare (a b : Version) : Ordering := compareList a.parts b.parts

/-! ## String-based comparator (src/types.rs) -/

/-- Lexicographic comparison of character lists, modelling Rust's `str::cmp`
fallback inside `compare_versions`. -/
def compareChars : List Char → List Char → Ordering
  | [], [] => .eq
  | [], _ :: _ => .lt
  | _ :: _, [] => .gt
  | a :: as, b :: bs =>
    match compare a.toNat b.toNat with
    | .eq => compareChars as bs
    | o => o

/-- The loop of `compare_versions` in src/types.rs, walking the two piece
iterators in lockstep: an exhausted left iterator orders less, an exhausted
right iterator orders greater, and for a pair of pieces the numeric comparison
is used when both parse as `u32` and string comparison otherwise. -/
def compareVersionsGo : List (List Char) → List (List Char) → Ordering
  | [], [] => .eq
  | [], _ :: _ => .lt
  | _ :: _, [] => .gt
  | c1 :: r1, c2 :: r2 =>
    let res :=
      match parseU32 c1, parseU32 c2 with
      | some i1, some i2 => compare i1 i2
      | _, _ => compareChars c1 c2
    match res with
    | .eq => compareVersionsGo r1 r2
    | o => o

/-- `compare_versions` from src/types.rs: split both strings on dots and walk
the pieces in lockstep. -/
def compare_versions (a b : List Char) : Ordering :=
  compareVersionsGo (splitOnDot a) (splitOnDot b)

/-! ## Order lemmas for the derived comparison -/

lemma compareList_eq_iff : ∀ a b : List Nat, compareList a b = .eq ↔ a = b
  | [], [] => by simp [compareList]
  | [], _ :: _ => by simp [compareList]
  | _ :: _, [] => by simp [compareList]
  | a :: as, b :: bs => by
    simp only [compareList]
    cases h : compare a b with
    | eq =>
      have hab : a = b := Nat.compare_eq_eq.mp h
      simp [hab, compareList_eq_iff as bs]
    | lt =>
      have hne : a ≠ b := Nat.ne_of_lt (Nat.compare_eq_lt.mp h)
      simp [hne]
    | gt =>
      have hne : a ≠ b := (Nat.ne_of_lt (Nat.compare_eq_gt.mp h)).symm
      simp [hne]

lemma compareList_lt_iff_gt : ∀ a b : List Nat,
    compareList a b = .lt ↔ compareList b a = .gt
  | [], [] => by simp [compareList]
  | [], _ :: _ => by simp [compareList]
  | _ :: _, [] => by simp [compareList]
  | a :: as, b :: bs => by
    simp only [compareList]
    cases h : compare a b with
    | eq =>
      have hab : a = b := Nat.compare_eq_eq.mp h
      rw [hab, Nat.compare_eq_eq.mpr rfl]
      exact compareList_lt_iff_gt as bs
    | lt =>
      rw [Nat.compare_eq_gt.mpr (Nat.compare_eq_lt.mp h)]
      simp
    | gt =>
      rw [Nat.compare_eq_lt.mpr (Nat.compare_eq_gt.mp h)]
      simp

lemma compareList_trans : ∀ a b c : List Nat,
    compareList a b = .lt → compareList b c = .lt → compareList a c = .lt
  | [], [], _, h1, _ => by simp [compareList] at h1
  | [], _ :: _, [], _, h2 => by simp [compareList] at h2
  | [], _ :: _, _ :: _, _, _ => by simp [compareList]
  | _ :: _, [], _, h1, _ => by simp [compareList] at h1
  | _ :: _, _ :: _, [], _, h2 => by simp [compareList] at h2
  | a :: as, b :: bs, c :: cs, h1, h2 => by
    simp only [compareList] at h1 h2 ⊢
    cases hab : compare a b with
    | gt => rw [hab] at h1; exact absurd h1 (by simp)
    | lt =>
      have hlt : a < b := Nat.compare_eq_lt.mp hab
      cases hbc : compare b c with
      | gt => rw [hbc] at h2; exact absurd h2 (by simp)
      | lt =>
        rw [Nat.compare_eq_lt.mpr (hlt.trans (Nat.compare_eq_lt.mp hbc))]
      | eq =>
        rw [← Nat.compare_eq_eq.mp hbc, Nat.compare_eq_lt.mpr hlt]
    | eq =>
      have hab' : a = b := Nat.compare_eq_eq.mp hab
      rw [hab] at h1
      cases hbc : compare b c with
      | gt => rw [hbc] at h2; exact absurd h2 (by simp)
      | lt => rw [hab', Nat.compare_eq_lt.mpr (Nat.compare_eq_lt.mp hbc)]
      | eq =>
        rw [hbc] at h2
        rw [hab', hbc]
        exact compareList_trans as bs cs h1 h2

lemma compareList_self_append : ∀ (as t : List Nat), t ≠ [] →
    compareList as (as ++ t) = .lt
  | [], [], h => absurd rfl h
  | [], _ :: _, _ => by simp [compareList]
  | a :: as, t, h => by
    simp only [List.cons_append, compareList, Nat.compare_eq_eq.mpr (rfl : a = a)]
    exact compareList_self_append as t h

lemma compareList_cons_cons (x y : Nat) (as bs : List Nat) :
    compareList (x :: as) (y :: bs) =
      if x < y then .lt else if y < x then .gt else compareList as bs := by
  simp only [compareList]
  rcases Nat.lt_trichotomy x y with h | h | h
  · rw [Nat.compare_eq_lt.mpr h, if_pos h]
  · subst h
    rw [Nat.compare_eq_eq.mpr rfl]
    simp
  · rw [Nat.compare_eq_gt.mpr h, if_neg (by omega), if_pos h]

/-- C3: the `Version` comparison is componentwise left to right with the first
differing component deciding, a strict prefix orders before the longer
sequence, and the comparison is a strict total order consistent with
equality. -/
theorem version_compare_strict_total_order (a b c : Version) :
    (versionCompare a b = .eq ↔ a = b) ∧
    (versionCompare a b = .lt ↔ versionCompare b a = .gt) ∧
    (versionCompare a b = .lt → versionCompare b c = .lt → versionCompare a c = .lt) ∧
    (versionCompare a b = .lt ∨ versionCompare a b = .eq ∨ versionCompare a b = .gt) ∧
    ((∃ t, t ≠ [] ∧ b.parts = a.parts ++ t) → versionCompare a b = .lt) ∧
    (∀ x y : Nat, ∀ as bs : List Nat,
      compareList (x :: as) (y :: bs) =
        if x < y then .lt else if y < x then .gt else compareList as bs) := by
  refine ⟨?_, compareList_lt_iff_gt _ _, compareList_trans _ _ _, ?_, ?_, ?_⟩
  · rw [versionCompare, compareList_eq_iff]
    cases a; cases b; simp
  · rcases h : versionCompare a b with _ | _ | _ <;> simp
  · rintro ⟨t, ht, hparts⟩
    rw [versionCompare, hparts]
    exact compareList_self_append _ _ ht
  · exact compareList_cons_cons

/-- Witness for C3 at concrete versions. -/
theorem version_compare_strict_total_order_witness :
    versionCompare ⟨[1, 1, 0]⟩ ⟨[2, 0, 0]⟩ = .lt ∧ versionCompare ⟨[1, 2]⟩ ⟨[1, 2, 0]⟩ = .lt :=
  ⟨(version_compare_strict_total_order ⟨[1, 1, 0]⟩ ⟨[1, 9]⟩ ⟨[2, 0, 0]⟩).2.2.1
      (by decide) (by decide),
   (version_compare_strict_total_order ⟨[1, 2]⟩ ⟨[1, 2, 0]⟩ ⟨[1, 2]⟩).2.2.2.2.1
      ⟨[0], by decide, rfl⟩⟩

/-! ## Agreement of the two comparison implementations (C9) -/

lemma parseParts_cons {g : List Char} {gt : List (List Char)} {ns : List Nat}
    (h : parseParts (g :: gt) = some ns) :
    ∃ n nt, parseU32 g = some n ∧ parseParts gt = some nt ∧ ns = n :: nt := by
  cases hg : parseU32 g <;> cases ht : parseParts gt <;>
    simp [parseParts, hg, ht] at h
  exact ⟨_, _, rfl, rfl, h.symm⟩

lemma compareVersionsGo_eq_compareList :
    ∀ (gs hs : List (List Char)) (ns ms : List Nat),
      parseParts gs = some ns → parseParts hs = some ms →
      compareVersionsGo gs hs = compareList ns ms
  | [], [], ns, ms, hn, hm => by
    simp [parseParts] at hn hm
    simp [compareVersionsGo, hn, hm, compareList]
  | [], h :: ht, ns, ms, hn, hm => by
    obtain ⟨m, mt, _, _, hms⟩ := parseParts_cons hm
    simp [parseParts] at hn
    simp [compareVersionsGo, hn, hms, compareList]
  | g :: gt, [], ns, ms, hn, hm => by
    obtain ⟨n, nt, _, _, hns⟩ := parseParts_cons hn
    simp [parseParts] at hm
    simp [compareVersionsGo, hns, hm, compareList]
  | g :: gt, h :: ht, ns, ms, hn, hm => by
    obtain ⟨n, nt, hg, hgt, hns⟩ := parseParts_cons hn
    obtain ⟨m, mt, hh, hht, hms⟩ := parseParts_cons hm
    subst hns; subst hms
    simp only [compareVersionsGo, hg, hh, compareList]
    cases compare n m with
    | eq => exact compareVersionsGo_eq_compareList gt ht nt mt hgt hht
    | lt => rfl
    | gt => rfl

/-- C9: on every pair of version strings that both parse, the string-based
comparator of src/types.rs computes the same ordering as the derived
comparison on the parsed `Version` values. -/
theorem compare_versions_agrees (a b : List Char) (va vb : Version)
    (ha : parseVersion a = some va) (hb : parseVersion b = some vb) :
    compare_versions a b = versionCompare va vb := by
  rw [parseVersion] at ha hb
  obtain ⟨ns, hns, hmk⟩ := Option.map_eq_some'.mp ha
  obtain ⟨ms, hms, hmk'⟩ := Option.map_eq_some'.mp hb
  rw [compare_versions, versionCompare, ← hmk, ← hmk']
  exact compareVersionsGo_eq_compareList _ _ _ _ hns hms

/-- Witness for C9 at concrete version texts. -/
theorem compare_versions_agrees_witness :
    compare_versions ['2', '.', '0'] ['1', '0', '.', '3'] = versionCompare ⟨[2, 0]⟩ ⟨[10, 3]⟩ :=
  compare_versions_agrees ['2', '.', '0'] ['1', '0', '.', '3'] ⟨[2, 0]⟩ ⟨[10, 3]⟩
    (by decide) (by decide)

/-! ## Round trip of parsing and formatting (C4) and parse failures (C5) -/

lemma charDigit_digitChar (d : Nat) (h : d < 10) :
    charDigit (Nat.digitChar d) = d := by
  interval_cases d <;> decide

lemma isDigit_digitChar (d : Nat) (h : d < 10) :
    (Nat.digitChar d).isDigit = true := by
  interval_cases d <;> decide

lemma natToCharsAux_digits : ∀ (fuel n : Nat), n ≤ fuel →
    ∀ c ∈ natToCharsAux fuel n, c.isDigit = true
  | 0, _, _, c, hc => by simp [natToCharsAux] at hc
  | fuel + 1, n, h, c, hc => by
    rw [natToCharsAux] at hc
    by_cases hn : n = 0
    · rw [if_pos hn] at hc; simp at hc
    · rw [if_neg hn] at hc
      rcases List.mem_append.mp hc with hm | hm
      · exact natToCharsAux_digits fuel (n / 10) (by omega) c hm
      · rw [List.mem_singleton.mp hm]
        exact isDigit_digitChar _ (Nat.mod_lt n (by norm_num))

lemma natToCharsAux_foldl : ∀ (fuel n : Nat), n ≤ fuel → ∀ acc : Nat,
    (natToCharsAux fuel n).foldl (fun a c => a * 10 + charDigit c) acc
      = acc * 10 ^ (natToCharsAux fuel n).length + n
  | 0, n, h, acc => by
    have hn : n = 0 := Nat.le_zero.mp h
    subst hn
    simp [natToCharsAux]
  | fuel + 1, n, h, acc => by
    by_cases hn : n = 0
    · subst hn; simp [natToCharsAux]
    · have hdiv : n / 10 ≤ fuel := by omega
      simp only [natToCharsAux, if_neg hn, List.foldl_append, List.length_append,
        List.length_cons, List.length_nil, List.foldl_cons, List.foldl_nil]
      rw [natToCharsAux_foldl fuel (n / 10) hdiv acc,
        charDigit_digitChar _ (Nat.mod_lt n (by norm_num)), pow_succ]
      generalize (10 : Nat) ^ (natToCharsAux fuel (n / 10)).length = K
      have hassoc : acc * (K * 10) = acc * K * 10 := by ring
      rw [hassoc]
      generalize acc * K = M
      omega

lemma natToChars_ne_nil (n : Nat) : natToChars n ≠ [] := by
  rw [natToChars]
  cases n with
  | zero => simp
  | succ m =>
    rw [if_neg (Nat.succ_ne_zero m), natToCharsAux, if_neg (Nat.succ_ne_zero m)]
    simp

lemma natToChars_digits (n : Nat) : ∀ c ∈ natToChars n, c.isDigit = true := by
  rw [natToChars]
  by_cases hn : n = 0
  · simp [hn]
  · rw [if_neg hn]
    exact natToCharsAux_digits n n le_rfl

lemma natToChars_foldl (n : Nat) :
    (natToChars n).foldl (fun a c => a * 10 + charDigit c) 0 = n := by
  rw [natToChars]
  by_cases hn : n = 0
  · subst hn; decide
  · rw [if_neg hn]
    simpa using natToCharsAux_foldl n n le_rfl 0

lemma parseU32_natToChars (n : Nat) (h : n < 2 ^ 32) :
    parseU32 (natToChars n) = some n := by
  cases hs : natToChars n with
  | nil => exact absurd hs (natToChars_ne_nil n)
  | cons c t =>
    have hdig : ∀ x ∈ c :: t, x.isDigit = true := by
      rw [← hs]; exact natToChars_digits n
    have hc : ¬(c = '+') := by
      intro e
      have hd := hdig c (List.mem_cons_self c t)
      rw [e] at hd
      simp at hd
    have hfold : (c :: t).foldl (fun a x => a * 10 + charDigit x) 0 = n := by
      rw [← hs]; exact natToChars_foldl n
    rw [parseU32]
    simp only [List.head?_cons, Option.some.injEq, if_neg hc, List.isEmpty_cons,
      Bool.false_eq_true, if_false, List.all_eq_true.mpr hdig, if_true, hfold, if_pos h]

lemma splitOnDot_ne_nil : ∀ l : List Char, splitOnDot l ≠ [] := by
  intro l
  cases l with
  | nil => simp [splitOnDot]
  | cons c rest =>
    rw [splitOnDot]
    cases hs : splitOnDot rest with
    | nil => simp
    | cons g gs => by_cases hc : c = '.' <;> simp [hc]

lemma joinDot_cons (c : Char) (g : List Char) (gs : List (List Char)) :
    joinDot ((c :: g) :: gs) = c :: joinDot (g :: gs) := by
  cases gs <;> simp [joinDot]

lemma joinDot_splitOnDot : ∀ l : List Char, joinDot (splitOnDot l) = l
  | [] => rfl
  | c :: rest => by
    have ih := joinDot_splitOnDot rest
    cases hs : splitOnDot rest with
    | nil => exact absurd hs (splitOnDot_ne_nil rest)
    | cons g gs =>
      rw [hs] at ih
      by_cases hc : c = '.'
      · subst hc
        simp only [splitOnDot, hs, if_pos rfl, joinDot, List.nil_append]
        rw [ih]
      · simp only [splitOnDot, hs, if_neg hc, joinDot_cons]
        rw [ih]

lemma parseParts_canonical : ∀ gs : List (List Char),
    (∀ c ∈ gs, ∃ n, n < 2 ^ 32 ∧ c = natToChars n) →
    ∃ ns, parseParts gs = some ns ∧ ns.map natToChars = gs
  | [], _ => ⟨[], rfl, rfl⟩
  | g :: gt, h => by
    obtain ⟨n, hn, hg⟩ := h g (List.mem_cons_self g gt)
    obtain ⟨ns, hp, hmap⟩ := parseParts_canonical gt (fun c hc => h c (List.mem_cons_of_mem g hc))
    refine ⟨n :: ns, ?_, ?_⟩
    · rw [parseParts, hg, parseU32_natToChars n hn, hp]
    · simp [hmap, hg]

/-- C4: formatting the version parsed from a valid dot-separated
non-negative-integer string reproduces the string exactly; validity means
every dot-separated piece is the canonical decimal text of a value that fits
in a `u32`. -/
theorem format_parse_roundtrip (s : List Char)
    (h : ∀ c ∈ splitOnDot s, ∃ n, n < 2 ^ 32 ∧ c = natToChars n) :
    ∃ v, parseVersion s = some v ∧ formatVersion v = s := by
  obtain ⟨ns, hp, hmap⟩ := parseParts_canonical (splitOnDot s) h
  refine ⟨⟨ns⟩, ?_, ?_⟩
  · rw [parseVersion, hp]; rfl
  · show joinDot (ns.map natToChars) = s
    rw [hmap, joinDot_splitOnDot]

/-- Witness for C4 at the concrete string 1.0.0. -/
theorem format_parse_roundtrip_witness :
    ∃ v, parseVersion ['1', '.', '0', '.', '0'] = some v ∧
      formatVersion v = ['1', '.', '0', '.', '0'] :=
  format_parse_roundtrip ['1', '.', '0', '.', '0'] (by
    have hs : splitOnDot ['1', '.', '0', '.', '0'] = [['1'], ['0'], ['0']] := by decide
    rw [hs]
    intro c hc
    simp only [List.mem_cons, List.not_mem_nil, or_false] at hc
    rcases hc with rfl | rfl | rfl
    · exact ⟨1, by norm_num, by decide⟩
    · exact ⟨0, by norm_num, by decide⟩
    · exact ⟨0, by norm_num, by decide⟩)

lemma parseU32_eq_none_of_not_all {c : List Char}
    (h : (if c.head? = some '+' then c.tail else c).all Char.isDigit = false) :
    parseU32 c = none := by
  rw [parseU32]
  simp only [h, Bool.false_eq_true, if_false, ite_self]

lemma parseU32_eq_none_of_bad {c : List Char}
    (h : c = [] ∨ ∃ ch ∈ c, ch.isDigit = false ∧ ch ≠ '+') : parseU32 c = none := by
  rcases h with rfl | ⟨ch, hmem, hnd, hne⟩
  · rfl
  · apply parseU32_eq_none_of_not_all
    rw [List.all_eq_false]
    refine ⟨ch, ?_, by simp [hnd]⟩
    split
    · next hplus =>
      cases c with
      | nil => simp at hmem
      | cons h0 t =>
        simp only [List.head?_cons, Option.some.injEq] at hplus
        subst hplus
        rcases List.mem_cons.mp hmem with rfl | ht
        · exact absurd rfl hne
        · simpa using ht
    · exact hmem

lemma parseParts_eq_none_of_mem {gs : List (List Char)} {c : List Char}
    (hc : c ∈ gs) (h : parseU32 c = none) : parseParts gs = none := by
  induction gs with
  | nil => simp at hc
  | cons g gt ih =>
    rcases List.mem_cons.mp hc with rfl | hmem
    · rw [parseParts, h]
    · rw [parseParts, ih hmem]
      cases parseU32 g <;> rfl

lemma parseU32_isSome_of_good {c : List Char} (hne : c ≠ [])
    (hd : ∀ ch ∈ c, ch.isDigit = true)
    (hb : c.foldl (fun a ch => a * 10 + charDigit ch) 0 < 2 ^ 32) :
    (parseU32 c).isSome = true := by
  cases c with
  | nil => exact absurd rfl hne
  | cons c0 t =>
    have hc : ¬(c0 = '+') := by
      intro e
      have hd0 := hd c0 (List.mem_cons_self c0 t)
      rw [e] at hd0
      simp at hd0
    rw [parseU32]
    simp only [List.head?_cons, Option.some.injEq, if_neg hc, List.isEmpty_cons,
      Bool.false_eq_true, if_false, List.all_eq_true.mpr hd, if_true, if_pos hb]
    rfl

lemma parseParts_isSome {gs : List (List Char)}
    (h : ∀ c ∈ gs, (parseU32 c).isSome = true) : (parseParts gs).isSome = true := by
  induction gs with
  | nil => rfl
  | cons g gt ih =>
    have hg := h g (List.mem_cons_self g gt)
    obtain ⟨n, hn⟩ := Option.isSome_iff_exists.mp hg
    have ht := ih (fun c hc => h c (List.mem_cons_of_mem g hc))
    obtain ⟨ns, hns⟩ := Option.isSome_iff_exists.mp ht
    rw [parseParts, hn, hns]
    rfl

/-- C5: parsing fails, with no partial result, on the empty string, on 1.x.0
and in general whenever some dot-separated piece is empty or contains a
character that is neither an ASCII digit nor a plus sign; conversely it
succeeds whenever every piece is a nonempty digit string whose value fits in
a `u32`. -/
theorem parse_version_error_cases (s : List Char) :
    parseVersion ([] : List Char) = none ∧
    parseVersion ['1', '.', 'x', '.', '0'] = none ∧
    ((∃ c ∈ splitOnDot s, c = [] ∨ ∃ ch ∈ c, ch.isDigit = false ∧ ch ≠ '+') →
      parseVersion s = none) ∧
    ((∀ c ∈ splitOnDot s, c ≠ [] ∧ (∀ ch ∈ c, ch.isDigit = true) ∧
        c.foldl (fun a ch => a * 10 + charDigit ch) 0 < 2 ^ 32) →
      (parseVersion s).isSome = true) := by
  refine ⟨by decide, by decide, ?_, ?_⟩
  · rintro ⟨c, hc, hbad⟩
    rw [parseVersion, parseParts_eq_none_of_mem hc (parseU32_eq_none_of_bad hbad)]
    rfl
  · intro h
    rw [parseVersion]
    have hall2 : ∀ c ∈ splitOnDot s, (parseU32 c).isSome = true := fun c hc =>
      parseU32_isSome_of_good (h c hc).1 (h c hc).2.1 (h c hc).2.2
    have := parseParts_isSome hall2
    obtain ⟨ns, hns⟩ := Option.isSome_iff_exists.mp this
    rw [hns]
    rfl

/-- Witness for C5: a parse that fails on a malformed component and a parse
that succeeds on an all-numeric string. -/
theorem parse_version_error_cases_witness :
    parseVersion ['x'] = none ∧ (parseVersion ['4', '2']).isSome = true :=
  ⟨(parse_version_error_cases ['x']).2.2.1
      ⟨['x'], by decide, Or.inr ⟨'x', by decide, by decide, by decide⟩⟩,
   (parse_version_error_cases ['4', '2']).2.2.2 (by
      intro c hc
      have hs : splitOnDot ['4', '2'] = [['4', '2']] := by decide
      rw [hs] at hc
      simp only [List.mem_cons, List.not_mem_nil, or_false] at hc
      subst hc
      refine ⟨by decide, by decide, by decide⟩)⟩

/-! ## Entities and backend abstraction (src/lib.rs, src/sync/mod.rs) -/

/-- The `MigrationInfo` struct: identity of a declared migration. -/
structure MigrationInfo where
  version : Version
  name : List Char
deriving DecidableEq

/-- The `ExecutedMigrationInfo` struct: a recorded execution with its
backend-assigned sequence number. -/
structure ExecutedMigrationInfo where
  migration : MigrationInfo
  sequence : Nat
deriving DecidableEq

instance : Inhabited MigrationInfo := ⟨⟨⟨[]⟩, []⟩⟩

instance : Inhabited ExecutedMigrationInfo := ⟨⟨default, 0⟩⟩

/-- The `MigrationError` enum of src/sync/mod.rs. -/
inductive MigrationError (E : Type) where
  | UnexpectedMigrations : List MigrationInfo → MigrationError E
  | DatabaseError : E → MigrationError E
deriving DecidableEq

/-- A backend connection, modelled by the results its two read-only calls
return to `migrate`. The `in_transaction` capability is never consulted by
`migrate`, which the call-trace model below makes explicit. -/
structure Conn (E : Type) where
  ensure_migration_table : Except E Unit
  load_existing_migrations : Except E (List ExecutedMigrationInfo)

/-- The `Migrations` trait, as seen by `migrate`: a supplier of the declared
migration identities. -/
structure Migrations where
  all_migrations : List MigrationInfo

/-! ## HashMap model -/

/-- `HashMap::insert`, on a map modelled as an association list with
insertion-order iteration: an existing key is overwritten in place, a new key
is appended. -/
def hmInsert {K V : Type} [DecidableEq K] (m : List (K × V)) (k : K) (v : V) :
    List (K × V) :=
  if m.any (fun p => decide (p.1 = k)) then
    m.map (fun p => if p.1 = k then (k, v) else p)
  else m ++ [(k, v)]

/-- `collect::<HashMap<_, _>>()` over a keyed iterator: sequential inserts,
so a later pair with a duplicate key overwrites the earlier one. -/
def collectMap {K V : Type} [DecidableEq K] (l : List (K × V)) : List (K × V) :=
  l.foldl (fun m kv => hmInsert m kv.1 kv.2) []

/-- One iteration of the loop in `merge`:
`result.entry(k).or_insert((None, None)).1 = Some(v)` — the entry for the key
gets its second slot set, a missing key is inserted as `(None, Some v)`. -/
def mergeStep {K V1 V2 : Type} [DecidableEq K]
    (res : List (K × (Option V1 × Option V2))) (kv : K × V2) :
    List (K × (Option V1 × Option V2)) :=
  if res.any (fun p => decide (p.1 = kv.1)) then
    res.map (fun p => if p.1 = kv.1 then (p.1, (p.2.1, some kv.2)) else p)
  else res ++ [(kv.1, (none, some kv.2))]

/-- `merge` from src/sync/mod.rs: the full outer join of two keyed maps,
starting from the first map's entries tagged `(Some v, None)` and folding the
second map's entries in. -/
def merge {K V1 V2 : Type} [DecidableEq K] (m1 : List (K × V1)) (m2 : List (K × V2)) :
    List (K × (Option V1 × Option V2)) :=
  m2.foldl mergeStep (m1.map (fun kv => (kv.1, (some kv.2, (none : Option V2)))))

/-! ## Reconciliation engine -/

/-- The sort predicate of `sort_unstable_by(|m1, m2| m1.version.cmp(&m2.version))`. -/
def versionLe (m1 m2 : MigrationInfo) : Bool :=
  decide (versionCompare m1.version m2.version ≠ .gt)

/-- `check_unexpected_migrations`: collect every joined pair whose declared
side is absent, take the recorded `MigrationInfo` of each, sort ascending by
version, and fail when any exist. -/
def check_unexpected_migrations {E : Type}
    (migration_state : List (Option MigrationInfo × Option ExecutedMigrationInfo)) :
    Except (MigrationError E) Unit :=
  let unexpected_migrations :=
    ((migration_state.filter (fun p => p.1.isNone)).map (fun p => p.2.iget.migration)).mergeSort
      versionLe
  if unexpected_migrations.isEmpty then .ok ()
  else .error (.UnexpectedMigrations unexpected_migrations)

/-- `migrate` from src/sync/mod.rs: ensure the bookkeeping table, build the
available and existing maps, merge them by version and check for unexpected
recorded migrations. Backend errors propagate via `From` as `DatabaseError`. -/
def migrate {E : Type} (conn : Conn E) (migrations : Migrations) :
    Except (MigrationError E) Unit :=
  match conn.ensure_migration_table with
  | .error e => .error (.DatabaseError e)
  | .ok _ =>
    let available := collectMap (migrations.all_migrations.map (fun m => (m.version, m)))
    match conn.load_existing_migrations with
    | .error e => .error (.DatabaseError e)
    | .ok loaded =>
      let existing := collectMap (loaded.map (fun m => (m.migration.version, m)))
      let migration_state := (merge available existing).map (fun p => p.2)
      check_unexpected_migrations migration_state

/-- The backend calls a `Connection` offers. -/
inductive BackendCall where
  | ensureMigrationTable
  | loadExistingMigrations
  | inTransaction
  | saveMigration
deriving DecidableEq

/-- `migrate` instrumented with the sequence of backend calls it issues, in
order: the same computation as `migrate` paired with its call trace. -/
def migrateTrace {E : Type} (conn : Conn E) (migrations : Migrations) :
    Except (MigrationError E) Unit × List BackendCall :=
  match conn.ensure_migration_table with
  | .error e => (.error (.DatabaseError e), [.ensureMigrationTable])
  | .ok _ =>
    let available := collectMap (migrations.all_migrations.map (fun m => (m.version, m)))
    match conn.load_existing_migrations with
    | .error e => (.error (.DatabaseError e), [.ensureMigrationTable, .loadExistingMigrations])
    | .ok loaded =>
      let existing := collectMap (loaded.map (fun m => (m.migration.version, m)))
      let migration_state := (merge available existing).map (fun p => p.2)
      (check_unexpected_migrations migration_state,
        [.ensureMigrationTable, .loadExistingMigrations])

/-! ## Migration registry builder -/

/-- The `ParseVersionError` enum of src/lib.rs. -/
inductive ParseVersionError where
  | parseIntError
deriving DecidableEq

/-- `MigrationsBuilder`: declared migrations keyed by version; `γ` stands for
the boxed migration action type `Box<dyn FnOnce(C) -> Result<(), E>>`. -/
structure MigrationsBuilder (γ : Type) where
  migrations : List (Version × (MigrationInfo × γ))

/-- `MigrationsBuilder::add_migration`: parse the version text, then insert
the migration keyed by the parsed version, silently replacing any previous
entry for that version. -/
def MigrationsBuilder.add_migration {γ : Type} (b : MigrationsBuilder γ)
    (version : List Char) (name : List Char) (f : γ) :
    Except ParseVersionError (MigrationsBuilder γ) :=
  match parseVersion version with
  | none => .error .parseIntError
  | some v => .ok ⟨hmInsert b.migrations v (⟨v, name⟩, f)⟩

/-- `MigrationsBuilder::all_migrations`: the stored identities. -/
def MigrationsBuilder.all_migrations {γ : Type} (b : MigrationsBuilder γ) :
    List MigrationInfo :=
  b.migrations.map (fun p => p.2.1)

/-! ## Map model lemmas -/

lemma any_key_iff {K V : Type} [DecidableEq K] (m : List (K × V)) (x : K) :
    m.any (fun p => decide (p.1 = x)) = true ↔ x ∈ m.map Prod.fst := by
  simp [List.any_eq_true]

lemma any_key_eq_decide {K V : Type} [DecidableEq K] (m : List (K × V)) (x : K) :
    m.any (fun p => decide (p.1 = x)) = decide (x ∈ m.map Prod.fst) := by
  rcases h : m.any (fun p => decide (p.1 = x)) with _ | _
  · refine (decide_eq_false fun hx => ?_).symm
    have := (any_key_iff m x).mpr hx
    rw [h] at this
    exact Bool.noConfusion this
  · exact (decide_eq_true ((any_key_iff m x).mp h)).symm

lemma hmInsert_keys {K V : Type} [DecidableEq K] (m : List (K × V)) (k : K) (v : V) :
    (hmInsert m k v).map Prod.fst =
      if k ∈ m.map Prod.fst then m.map Prod.fst else m.map Prod.fst ++ [k] := by
  rw [hmInsert]
  by_cases h : m.any (fun p => decide (p.1 = k)) = true
  · rw [if_pos h, if_pos ((any_key_iff m k).mp h), List.map_map]
    apply List.map_congr_left
    intro p _
    simp only [Function.comp_apply]
    by_cases hpk : p.1 = k
    · rw [if_pos hpk]
      exact hpk.symm
    · rw [if_neg hpk]
  · rw [if_neg h, if_neg (fun hx => h ((any_key_iff m k).mpr hx))]
    simp

lemma hmInsert_keys_nodup {K V : Type} [DecidableEq K] {m : List (K × V)} (k : K) (v : V)
    (h : (m.map Prod.fst).Nodup) : ((hmInsert m k v).map Prod.fst).Nodup := by
  rw [hmInsert_keys]
  by_cases hk : k ∈ m.map Prod.fst
  · rwa [if_pos hk]
  · rw [if_neg hk]
    simp [List.nodup_append, h, hk]

lemma collectMap_keys_mem {K V : Type} [DecidableEq K] (l : List (K × V)) (x : K) :
    x ∈ (collectMap l).map Prod.fst ↔ x ∈ l.map Prod.fst := by
  suffices h : ∀ acc : List (K × V),
      x ∈ (l.foldl (fun m kv => hmInsert m kv.1 kv.2) acc).map Prod.fst ↔
        x ∈ acc.map Prod.fst ∨ x ∈ l.map Prod.fst by
    simpa [collectMap] using h []
  induction l with
  | nil => intro acc; simp
  | cons kv rest ih =>
    intro acc
    rw [List.foldl_cons, ih (hmInsert acc kv.1 kv.2), hmInsert_keys]
    by_cases hk : kv.1 ∈ acc.map Prod.fst
    · rw [if_pos hk]
      simp only [List.map_cons, List.mem_cons]
      constructor
      · rintro (h' | h')
        · exact Or.inl h'
        · exact Or.inr (Or.inr h')
      · rintro (h' | h' | h')
        · exact Or.inl h'
        · exact Or.inl (h' ▸ hk)
        · exact Or.inr h'
    · rw [if_neg hk]
      simp only [List.mem_append, List.mem_singleton, List.map_cons, List.mem_cons]
      tauto

lemma collectMap_eq_self {K V : Type} [DecidableEq K] {l : List (K × V)}
    (h : (l.map Prod.fst).Nodup) : collectMap l = l := by
  suffices haux : ∀ acc : List (K × V), (acc.map Prod.fst ++ l.map Prod.fst).Nodup →
      l.foldl (fun m kv => hmInsert m kv.1 kv.2) acc = acc ++ l by
    simpa [collectMap] using haux [] (by simpa using h)
  clear h
  induction l with
  | nil => intro acc _; simp
  | cons kv rest ih =>
    intro acc hnd
    rw [List.foldl_cons]
    have hk : kv.1 ∉ acc.map Prod.fst := by
      intro hmem
      rcases List.nodup_append.mp hnd with ⟨_, _, hdisj⟩
      exact hdisj hmem (by simp)
    have hins : hmInsert acc kv.1 kv.2 = acc ++ [kv] := by
      rw [hmInsert, if_neg (fun hany => hk ((any_key_iff acc kv.1).mp hany))]
    rw [hins, ih (acc ++ [kv]) (by simpa [List.append_assoc] using hnd), List.append_assoc,
      List.singleton_append]

/-! ## Merge lemmas -/

lemma map_fst_mergeUpdate {K V1 V2 : Type} [DecidableEq K]
    (res : List (K × (Option V1 × Option V2))) (k : K) (v : V2) :
    (res.map (fun p => if p.1 = k then (p.1, (p.2.1, some v)) else p)).map Prod.fst =
      res.map Prod.fst := by
  rw [List.map_map]
  apply List.map_congr_left
  intro p _
  simp only [Function.comp_apply]
  by_cases hpk : p.1 = k
  · rw [if_pos hpk]
  · rw [if_neg hpk]

lemma foldl_mergeStep_no_unexpected {K V1 V2 : Type} [DecidableEq K] :
    ∀ (m2 : List (K × V2)) (res : List (K × (Option V1 × Option V2))),
      (∀ kv ∈ m2, kv.1 ∈ res.map Prod.fst) →
      (∀ p ∈ res, p.2.1.isSome = true) →
      ((m2.foldl mergeStep res).map (fun p => p.2)).filter (fun q => q.1.isNone) = []
  | [], res, _, hsome => by
    rw [List.foldl_nil, List.filter_eq_nil_iff]
    intro q hq
    obtain ⟨p, hp, rfl⟩ := List.mem_map.mp hq
    have hs := hsome p hp
    cases h21 : p.2.1 with
    | none => rw [h21] at hs; exact absurd hs (by simp)
    | some a => simp [h21]
  | kv :: rest, res, hmem, hsome => by
    rw [List.foldl_cons, mergeStep,
      if_pos ((any_key_iff res kv.1).mpr (hmem kv (List.mem_cons_self kv rest)))]
    apply foldl_mergeStep_no_unexpected rest
    · intro kv' h'
      rw [map_fst_mergeUpdate]
      exact hmem kv' (List.mem_cons_of_mem kv h')
    · intro p hp
      obtain ⟨q, hq, rfl⟩ := List.mem_map.mp hp
      by_cases hqk : q.1 = kv.1
      · rw [if_pos hqk]
        exact hsome q hq
      · rw [if_neg hqk]
        exact hsome q hq

lemma update_preserves_unexpected {K V1 V2 : Type} [DecidableEq K]
    (res : List (K × (Option V1 × Option V2))) (k : K) (v : V2)
    (h : ∀ p ∈ res, p.2.1 = none → p.1 ≠ k) :
    ((res.map (fun p => if p.1 = k then (p.1, (p.2.1, some v)) else p)).map
        (fun p => p.2)).filter (fun q => q.1.isNone)
      = (res.map (fun p => p.2)).filter (fun q => q.1.isNone) := by
  induction res with
  | nil => rfl
  | cons p rest ih =>
    have hrest := ih (fun q hq => h q (List.mem_cons_of_mem p hq))
    by_cases hpk : p.1 = k
    · have hsome : p.2.1 ≠ none := fun hn => h p (List.mem_cons_self p rest) hn hpk
      cases hp21 : p.2.1 with
      | none => exact absurd hp21 hsome
      | some a =>
        simp only [List.map_cons, if_pos hpk, List.filter_cons, hp21, Option.isNone_some,
          Bool.false_eq_true, if_false]
        exact hrest
    · simp only [List.map_cons, if_neg hpk, List.filter_cons]
      rw [hrest]

lemma foldl_mergeStep_unexpected {K V1 V2 : Type} [DecidableEq K] :
    ∀ (m2 : List (K × V2)) (res : List (K × (Option V1 × Option V2))),
      (m2.map Prod.fst).Nodup →
      (∀ p ∈ res, p.2.1 = none → p.1 ∉ m2.map Prod.fst) →
      ((m2.foldl mergeStep res).map (fun p => p.2)).filter (fun q => q.1.isNone)
        = (res.map (fun p => p.2)).filter (fun q => q.1.isNone)
          ++ (m2.filter (fun kv => !res.any (fun p => decide (p.1 = kv.1)))).map
              (fun kv => ((none : Option V1), some kv.2))
  | [], res, _, _ => by simp
  | kv :: rest, res, hnd, hinv => by
    have hnd' : (rest.map Prod.fst).Nodup := (List.nodup_cons.mp (by simpa using hnd)).2
    have hknotin : kv.1 ∉ rest.map Prod.fst := (List.nodup_cons.mp (by simpa using hnd)).1
    rw [List.foldl_cons, mergeStep]
    by_cases hk : res.any (fun p => decide (p.1 = kv.1)) = true
    · rw [if_pos hk]
      have hupd := update_preserves_unexpected res kv.1 kv.2
        (fun p hp hn => fun he => hinv p hp hn (by simp [he]))
      have hinv' : ∀ p ∈ res.map (fun p => if p.1 = kv.1 then (p.1, (p.2.1, some kv.2)) else p),
          p.2.1 = none → p.1 ∉ rest.map Prod.fst := by
        intro p hp hn
        obtain ⟨q, hq, rfl⟩ := List.mem_map.mp hp
        by_cases hqk : q.1 = kv.1
        · rw [if_pos hqk] at hn ⊢
          simp only at hn
          intro hc
          exact hinv q hq hn (by simp [List.mem_cons_of_mem, hc])
        · rw [if_neg hqk] at hn ⊢
          intro hc
          exact hinv q hq hn (List.mem_cons_of_mem _ hc)
      rw [foldl_mergeStep_unexpected rest _ hnd' hinv', hupd]
      have hfcongr : rest.filter (fun kv' => !(res.map
            (fun p => if p.1 = kv.1 then (p.1, (p.2.1, some kv.2)) else p)).any
              (fun p => decide (p.1 = kv'.1)))
          = rest.filter (fun kv' => !res.any (fun p => decide (p.1 = kv'.1))) := by
        apply List.filter_congr
        intro kv' _
        rw [any_key_eq_decide, any_key_eq_decide, map_fst_mergeUpdate]
      rw [hfcongr, List.filter_cons_of_neg (by simp [hk])]
    · rw [if_neg hk]
      have hinv' : ∀ p ∈ res ++ [(kv.1, ((none : Option V1), some kv.2))],
          p.2.1 = none → p.1 ∉ rest.map Prod.fst := by
        intro p hp hn
        rcases List.mem_append.mp hp with hp' | hp'
        · intro hc
          exact hinv p hp' hn (List.mem_cons_of_mem _ hc)
        · rw [List.mem_singleton.mp hp']
          exact hknotin
      rw [foldl_mergeStep_unexpected rest _ hnd' hinv']
      have happend : ((res ++ [(kv.1, ((none : Option V1), some kv.2))]).map
            (fun p => p.2)).filter (fun q => q.1.isNone)
          = (res.map (fun p => p.2)).filter (fun q => q.1.isNone)
            ++ [((none : Option V1), some kv.2)] := by
        rw [List.map_append, List.filter_append]
        rfl
      have hfcongr : rest.filter (fun kv' => !(res ++
            [(kv.1, ((none : Option V1), some kv.2))]).any
              (fun p => decide (p.1 = kv'.1)))
          = rest.filter (fun kv' => !res.any (fun p => decide (p.1 = kv'.1))) := by
        apply List.filter_congr
        intro kv' hkv'
        have hne : kv'.1 ≠ kv.1 := by
          intro he
          exact hknotin (he ▸ List.mem_map_of_mem Prod.fst hkv')
        simp only [List.any_append, List.any_cons, List.any_nil, Bool.or_false]
        have hdec : decide (kv.1 = kv'.1) = false :=
          decide_eq_false (fun he => hne (Eq.symm he))
        rw [hdec, Bool.or_false]
      rw [happend, hfcongr, List.filter_cons_of_pos (by simp [hk]), List.map_cons,
        List.append_assoc, List.singleton_append]

/-! ## Reconciliation lemmas -/

lemma versionCompare_eq_iff (a b : Version) : versionCompare a b = .eq ↔ a = b := by
  rw [versionCompare, compareList_eq_iff]
  cases a; cases b; simp

lemma compareList_le_trans {a b c : List Nat}
    (hab : compareList a b ≠ .gt) (hbc : compareList b c ≠ .gt) :
    compareList a c ≠ .gt := by
  rcases h1 : compareList a b with _ | _ | _
  · rcases h2 : compareList b c with _ | _ | _
    · simp [compareList_trans a b c h1 h2]
    · rw [← (compareList_eq_iff b c).mp h2]
      simp [h1]
    · exact absurd h2 hbc
  · rw [(compareList_eq_iff a b).mp h1]
    exact hbc
  · exact absurd h1 hab

lemma compareList_le_total (a b : List Nat) :
    compareList a b ≠ .gt ∨ compareList b a ≠ .gt := by
  rcases h : compareList a b with _ | _ | _
  · left; simp [h]
  · left; simp [h]
  · right
    simp [(compareList_lt_iff_gt b a).mpr h]

lemma map_fst_tag {K V1 V2 : Type} (m1 : List (K × V1)) :
    (m1.map (fun kv => (kv.1, (some kv.2, (none : Option V2))))).map Prod.fst =
      m1.map Prod.fst := by
  rw [List.map_map]
  rfl

lemma tagged_no_unexpected {K V1 V2 : Type} (m1 : List (K × V1)) :
    ((m1.map (fun kv => (kv.1, (some kv.2, (none : Option V2))))).map
        (fun p => p.2)).filter (fun q => q.1.isNone) = [] := by
  rw [List.filter_eq_nil_iff]
  intro q hq
  obtain ⟨p, hp, rfl⟩ := List.mem_map.mp hq
  obtain ⟨kv, _, rfl⟩ := List.mem_map.mp hp
  simp

lemma check_unexpected_eq_ok {E : Type}
    (st : List (Option MigrationInfo × Option ExecutedMigrationInfo))
    (h : st.filter (fun p => p.1.isNone) = []) :
    (check_unexpected_migrations st : Except (MigrationError E) Unit) = .ok () := by
  simp only [check_unexpected_migrations, h, List.map_nil, List.mergeSort_nil,
    List.isEmpty_nil, if_true]

lemma check_unexpected_eq_error {E : Type}
    (st : List (Option MigrationInfo × Option ExecutedMigrationInfo))
    (pre : List MigrationInfo)
    (hpre : (st.filter (fun p => p.1.isNone)).map (fun p => p.2.iget.migration) = pre)
    (hne : pre ≠ []) :
    (check_unexpected_migrations st : Except (MigrationError E) Unit) =
      .error (.UnexpectedMigrations (pre.mergeSort versionLe)) := by
  simp only [check_unexpected_migrations, hpre]
  have hempty : (pre.mergeSort versionLe).isEmpty = false := by
    cases hs : pre.mergeSort versionLe with
    | nil =>
      have hp := List.mergeSort_perm pre versionLe
      rw [hs] at hp
      exact absurd hp.symm.eq_nil hne
    | cons a t => rfl
  rw [hempty]
  simp

lemma migrate_ok_core {E : Type} (conn : Conn E) (migs : Migrations)
    (recorded : List ExecutedMigrationInfo)
    (hens : conn.ensure_migration_table = .ok ())
    (hload : conn.load_existing_migrations = .ok recorded)
    (hall : ∀ r ∈ recorded, ∃ a ∈ migs.all_migrations, a.version = r.migration.version) :
    migrate conn migs = .ok () := by
  have hmig : migrate conn migs = check_unexpected_migrations
      ((merge (collectMap (migs.all_migrations.map (fun m => (m.version, m))))
        (collectMap (recorded.map (fun m => (m.migration.version, m))))).map (fun p => p.2)) := by
    simp only [migrate, hens, hload]
  rw [hmig]
  apply check_unexpected_eq_ok
  rw [merge]
  apply foldl_mergeStep_no_unexpected
  · intro kv hkv
    rw [map_fst_tag, collectMap_keys_mem]
    have hk1 : kv.1 ∈ (collectMap (recorded.map (fun m => (m.migration.version, m)))).map
        Prod.fst := List.mem_map_of_mem Prod.fst hkv
    rw [collectMap_keys_mem, List.map_map] at hk1
    obtain ⟨r, hr, hv⟩ := List.mem_map.mp hk1
    obtain ⟨a, ha, hav⟩ := hall r hr
    rw [List.map_map]
    exact List.mem_map.mpr ⟨a, ha, by rw [← hv]; exact hav⟩
  · intro p hp
    obtain ⟨kv, _, rfl⟩ := List.mem_map.mp hp
    rfl

/-- C2: when every recorded execution has a declared migration with the same
version, `migrate` succeeds, even if declared migrations exist with no
recorded execution. -/
theorem migrate_success_when_recorded_covered {E : Type} (conn : Conn E)
    (migs : Migrations) (recorded : List ExecutedMigrationInfo)
    (hens : conn.ensure_migration_table = .ok ())
    (hload : conn.load_existing_migrations = .ok recorded)
    (hall : ∀ r ∈ recorded, ∃ a ∈ migs.all_migrations, a.version = r.migration.version) :
    migrate conn migs = .ok () :=
  migrate_ok_core conn migs recorded hens hload hall

/-- Witness for C2: declared 1.0.0 and 2.0.0, recorded only 1.0.0; the
pending 2.0.0 does not cause failure. -/
theorem migrate_success_when_recorded_covered_witness :
    migrate (⟨.ok (), .ok [⟨⟨⟨[1, 0, 0]⟩, ['a']⟩, 1⟩]⟩ : Conn Unit)
      ⟨[⟨⟨[1, 0, 0]⟩, ['a']⟩, ⟨⟨[2, 0, 0]⟩, ['b']⟩]⟩ = .ok () :=
  migrate_success_when_recorded_covered _ _ [⟨⟨⟨[1, 0, 0]⟩, ['a']⟩, 1⟩] rfl rfl (by
    intro r hr
    simp only [List.mem_cons, List.not_mem_nil, or_false] at hr
    subst hr
    exact ⟨⟨⟨[1, 0, 0]⟩, ['a']⟩, by simp, rfl⟩)

/-- C10: matching is by version only; recorded executions whose names differ
from every declared name still reconcile successfully as long as their
versions are declared. -/
theorem migrate_matches_by_version_not_name {E : Type} (conn : Conn E)
    (migs : Migrations) (recorded : List ExecutedMigrationInfo)
    (hens : conn.ensure_migration_table = .ok ())
    (hload : conn.load_existing_migrations = .ok recorded)
    (hver : ∀ r ∈ recorded, ∃ a ∈ migs.all_migrations, a.version = r.migration.version)
    (_hname : ∀ r ∈ recorded, ∀ a ∈ migs.all_migrations, r.migration.name ≠ a.name) :
    migrate conn migs = .ok () :=
  migrate_ok_core conn migs recorded hens hload hver

/-- Witness for C10: version 1.0.0 recorded under a different name than the
declared one; `migrate` still succeeds. -/
theorem migrate_matches_by_version_not_name_witness :
    migrate (⟨.ok (), .ok [⟨⟨⟨[1, 0, 0]⟩, ['x']⟩, 1⟩]⟩ : Conn Unit)
      ⟨[⟨⟨[1, 0, 0]⟩, ['y']⟩]⟩ = .ok () :=
  migrate_matches_by_version_not_name _ _ [⟨⟨⟨[1, 0, 0]⟩, ['x']⟩, 1⟩] rfl rfl
    (by
      intro r hr
      simp only [List.mem_cons, List.not_mem_nil, or_false] at hr
      subst hr
      exact ⟨⟨⟨[1, 0, 0]⟩, ['y']⟩, by simp, rfl⟩)
    (by
      intro r hr a ha
      simp only [List.mem_cons, List.not_mem_nil, or_false] at hr ha
      subst hr; subst ha
      simp)

/-- C7: a failure of `ensure_migration_table` or of
`load_existing_migrations` is returned as `DatabaseError` wrapping the
backend error unmodified, and no further backend call is attempted after the
failing one. -/
theorem migrate_backend_error_propagation {E : Type} (conn : Conn E)
    (migs : Migrations) (e : E) :
    (conn.ensure_migration_table = .error e →
      migrate conn migs = .error (.DatabaseError e) ∧
        (migrateTrace conn migs).2 = [.ensureMigrationTable]) ∧
    (conn.ensure_migration_table = .ok () → conn.load_existing_migrations = .error e →
      migrate conn migs = .error (.DatabaseError e) ∧
        (migrateTrace conn migs).2 =
          [.ensureMigrationTable, .loadExistingMigrations]) := by
  constructor
  · intro h
    constructor
    · simp only [migrate, h]
    · simp only [migrateTrace, h]
  · intro h1 h2
    constructor
    · simp only [migrate, h1, h2]
    · simp only [migrateTrace, h1, h2]

/-- Witness for C7 at a concrete failing connection. -/
theorem migrate_backend_error_propagation_witness :
    migrate (⟨.error 7, .ok []⟩ : Conn Nat) ⟨[]⟩ = .error (.DatabaseError 7) ∧
      migrate (⟨.ok (), .error 9⟩ : Conn Nat) ⟨[]⟩ = .error (.DatabaseError 9) :=
  ⟨((migrate_backend_error_propagation (⟨.error 7, .ok []⟩ : Conn Nat) ⟨[]⟩ 7).1 rfl).1,
   ((migrate_backend_error_propagation (⟨.ok (), .error 9⟩ : Conn Nat) ⟨[]⟩ 9).2 rfl rfl).1⟩

/-- C8: `migrate` issues at most two backend calls, `ensure_migration_table`
then `load_existing_migrations`, and never calls `in_transaction` or
`save_migration` on any path, so it never writes to the recorded-migrations
store. -/
theorem migrate_at_most_two_backend_calls {E : Type} (conn : Conn E)
    (migs : Migrations) :
    (migrateTrace conn migs).1 = migrate conn migs ∧
    ((migrateTrace conn migs).2 = [.ensureMigrationTable] ∨
      (migrateTrace conn migs).2 = [.ensureMigrationTable, .loadExistingMigrations]) ∧
    BackendCall.inTransaction ∉ (migrateTrace conn migs).2 ∧
    BackendCall.saveMigration ∉ (migrateTrace conn migs).2 := by
  cases hens : conn.ensure_migration_table with
  | error e =>
    refine ⟨by simp only [migrateTrace, migrate, hens], Or.inl ?_, ?_, ?_⟩ <;>
      simp [migrateTrace, hens]
  | ok u =>
    cases u
    cases hload : conn.load_existing_migrations with
    | error e =>
      refine ⟨by simp only [migrateTrace, migrate, hens, hload], Or.inr ?_, ?_, ?_⟩ <;>
        simp [migrateTrace, hens, hload]
    | ok recorded =>
      refine ⟨by simp only [migrateTrace, migrate, hens, hload], Or.inr ?_, ?_, ?_⟩ <;>
        simp [migrateTrace, hens, hload]

/-! ## Unexpected migrations (C1) -/

/-- C1: when some recorded execution has a version matching no declared
migration, `migrate` fails with `UnexpectedMigrations` carrying exactly the
recorded migrations whose versions are undeclared, sorted strictly ascending
by version. The backend's uniqueness of recorded versions (spec section 4.4
and 6) is taken as the `hnodup` hypothesis. -/
theorem migrate_unexpected_migrations {E : Type} (conn : Conn E) (migs : Migrations)
    (recorded : List ExecutedMigrationInfo)
    (hens : conn.ensure_migration_table = .ok ())
    (hload : conn.load_existing_migrations = .ok recorded)
    (hnodup : (recorded.map (fun r => r.migration.version)).Nodup)
    (hsome : ∃ r ∈ recorded, ∀ a ∈ migs.all_migrations, a.version ≠ r.migration.version) :
    ∃ l, migrate conn migs = .error (.UnexpectedMigrations l) ∧
      (∀ m : MigrationInfo, m ∈ l ↔ ∃ r ∈ recorded, r.migration = m ∧
        ∀ a ∈ migs.all_migrations, a.version ≠ m.version) ∧
      l.Pairwise (fun m1 m2 => versionCompare m1.version m2.version = .lt) := by
  have hl2keys : ((recorded.map (fun m => (m.migration.version, m))).map Prod.fst).Nodup := by
    rw [List.map_map]
    exact hnodup
  have hE2 : collectMap (recorded.map (fun m => (m.migration.version, m))) =
      recorded.map (fun m => (m.migration.version, m)) := collectMap_eq_self hl2keys
  have hmig : migrate conn migs = check_unexpected_migrations
      ((merge (collectMap (migs.all_migrations.map (fun m => (m.version, m))))
        (collectMap (recorded.map (fun m => (m.migration.version, m))))).map
          (fun p => p.2)) := by
    simp only [migrate, hens, hload]
  have hinv : ∀ p ∈ (collectMap (migs.all_migrations.map (fun m => (m.version, m)))).map
      (fun kv => (kv.1, (some kv.2, (none : Option ExecutedMigrationInfo)))),
      p.2.1 = none →
        p.1 ∉ (recorded.map (fun m => (m.migration.version, m))).map Prod.fst := by
    intro p hp hn
    obtain ⟨kv, _, rfl⟩ := List.mem_map.mp hp
    exact absurd hn (by simp)
  have hmerge := foldl_mergeStep_unexpected
    (recorded.map (fun m => (m.migration.version, m)))
    ((collectMap (migs.all_migrations.map (fun m => (m.version, m)))).map
      (fun kv => (kv.1, (some kv.2, (none : Option ExecutedMigrationInfo)))))
    hl2keys hinv
  have hpre : ((((merge (collectMap (migs.all_migrations.map (fun m => (m.version, m))))
        (collectMap (recorded.map (fun m => (m.migration.version, m))))).map
          (fun p => p.2)).filter (fun p => p.1.isNone)).map (fun p => p.2.iget.migration))
      = (recorded.filter (fun r =>
          !((collectMap (migs.all_migrations.map (fun m => (m.version, m)))).map
            (fun kv => (kv.1, (some kv.2, (none : Option ExecutedMigrationInfo))))).any
              (fun p => decide (p.1 = r.migration.version)))).map (fun r => r.migration) := by
    rw [hE2, merge, hmerge, tagged_no_unexpected, List.nil_append, List.map_map,
      List.filter_map, List.map_map]
    rfl
  have hbadb : ∀ r : ExecutedMigrationInfo,
      ((!((collectMap (migs.all_migrations.map (fun m => (m.version, m)))).map
        (fun kv => (kv.1, (some kv.2, (none : Option ExecutedMigrationInfo))))).any
          (fun p => decide (p.1 = r.migration.version))) = true)
      ↔ ∀ a ∈ migs.all_migrations, a.version ≠ r.migration.version := by
    intro r
    have hany : (((collectMap (migs.all_migrations.map (fun m => (m.version, m)))).map
        (fun kv => (kv.1, (some kv.2, (none : Option ExecutedMigrationInfo))))).any
          (fun p => decide (p.1 = r.migration.version)) = true)
        ↔ ∃ a ∈ migs.all_migrations, a.version = r.migration.version := by
      rw [any_key_iff, map_fst_tag, collectMap_keys_mem, List.map_map]
      simp [List.mem_map]
    constructor
    · intro hb a ha hv
      rw [hany.mpr ⟨a, ha, hv⟩] at hb
      exact absurd hb (by simp)
    · intro h
      rw [Bool.not_eq_true']
      rcases Bool.eq_false_or_eq_true (((collectMap
          (migs.all_migrations.map (fun m => (m.version, m)))).map
            (fun kv => (kv.1, (some kv.2, (none : Option ExecutedMigrationInfo))))).any
              (fun p => decide (p.1 = r.migration.version))) with hb | hb
      · obtain ⟨a, ha, hv⟩ := hany.mp hb
        exact absurd hv (h a ha)
      · exact hb
  have hmem : ∀ m : MigrationInfo,
      m ∈ (recorded.filter (fun r =>
        !((collectMap (migs.all_migrations.map (fun m => (m.version, m)))).map
          (fun kv => (kv.1, (some kv.2, (none : Option ExecutedMigrationInfo))))).any
            (fun p => decide (p.1 = r.migration.version)))).map (fun r => r.migration)
      ↔ ∃ r ∈ recorded, r.migration = m ∧
          ∀ a ∈ migs.all_migrations, a.version ≠ m.version := by
    intro m
    rw [List.mem_map]
    constructor
    · rintro ⟨r, hr, rfl⟩
      have hf := List.mem_filter.mp hr
      exact ⟨r, hf.1, rfl, (hbadb r).mp hf.2⟩
    · rintro ⟨r, hr, hm, hver⟩
      refine ⟨r, List.mem_filter.mpr ⟨hr, (hbadb r).mpr ?_⟩, hm⟩
      intro a ha
      rw [hm]
      exact hver a ha
  obtain ⟨r0, hr0, hver0⟩ := hsome
  have hprene : (recorded.filter (fun r =>
      !((collectMap (migs.all_migrations.map (fun m => (m.version, m)))).map
        (fun kv => (kv.1, (some kv.2, (none : Option ExecutedMigrationInfo))))).any
          (fun p => decide (p.1 = r.migration.version)))).map (fun r => r.migration) ≠ [] := by
    intro hnil
    have hr0mem : r0.migration ∈ (recorded.filter (fun r =>
        !((collectMap (migs.all_migrations.map (fun m => (m.version, m)))).map
          (fun kv => (kv.1, (some kv.2, (none : Option ExecutedMigrationInfo))))).any
            (fun p => decide (p.1 = r.migration.version)))).map (fun r => r.migration) :=
      List.mem_map.mpr ⟨r0, List.mem_filter.mpr ⟨hr0, (hbadb r0).mpr hver0⟩, rfl⟩
    rw [hnil] at hr0mem
    exact absurd hr0mem (by simp)
  refine ⟨((recorded.filter (fun r =>
      !((collectMap (migs.all_migrations.map (fun m => (m.version, m)))).map
        (fun kv => (kv.1, (some kv.2, (none : Option ExecutedMigrationInfo))))).any
          (fun p => decide (p.1 = r.migration.version)))).map
            (fun r => r.migration)).mergeSort versionLe, ?_, ?_, ?_⟩
  · rw [hmig]
    exact check_unexpected_eq_error _ _ hpre hprene
  · intro m
    rw [List.mem_mergeSort]
    exact hmem m
  · have htrans : ∀ x y z : MigrationInfo, versionLe x y = true → versionLe y z = true →
        versionLe x z = true := by
      intro x y z hxy hyz
      simp only [versionLe, decide_eq_true_eq] at hxy hyz ⊢
      exact compareList_le_trans hxy hyz
    have htotal : ∀ x y : MigrationInfo, (versionLe x y || versionLe y x) = true := by
      intro x y
      rcases compareList_le_total x.version.parts y.version.parts with h | h
      · rw [Bool.or_eq_true]
        exact Or.inl (decide_eq_true h)
      · rw [Bool.or_eq_true]
        exact Or.inr (decide_eq_true h)
    have hsorted := List.sorted_mergeSort htrans htotal
      ((recorded.filter (fun r =>
        !((collectMap (migs.all_migrations.map (fun m => (m.version, m)))).map
          (fun kv => (kv.1, (some kv.2, (none : Option ExecutedMigrationInfo))))).any
            (fun p => decide (p.1 = r.migration.version)))).map (fun r => r.migration))
    have hperm := List.mergeSort_perm ((recorded.filter (fun r =>
        !((collectMap (migs.all_migrations.map (fun m => (m.version, m)))).map
          (fun kv => (kv.1, (some kv.2, (none : Option ExecutedMigrationInfo))))).any
            (fun p => decide (p.1 = r.migration.version)))).map
              (fun r => r.migration)) versionLe
    have hnodup1 : (((recorded.filter (fun r =>
        !((collectMap (migs.all_migrations.map (fun m => (m.version, m)))).map
          (fun kv => (kv.1, (some kv.2, (none : Option ExecutedMigrationInfo))))).any
            (fun p => decide (p.1 = r.migration.version)))).map
              (fun r => r.migration)).map (fun m => m.version)).Nodup := by
      rw [List.map_map]
      exact List.Nodup.sublist ((List.filter_sublist recorded).map _) hnodup
    have hsortnodup := (hperm.map (fun m => m.version)).nodup_iff.mpr hnodup1
    have hpairne := List.pairwise_map.mp hsortnodup
    have himp : ∀ a b : MigrationInfo,
        versionLe a b = true ∧ a.version ≠ b.version →
          versionCompare a.version b.version = .lt := by
      rintro a b ⟨h1, h2⟩
      simp only [versionLe, decide_eq_true_eq] at h1
      rcases h : versionCompare a.version b.version with _ | _ | _
      · rfl
      · exact absurd ((versionCompare_eq_iff _ _).mp h) h2
      · exact absurd h h1
    exact List.Pairwise.imp (fun {a b} hab => himp a b hab) (hsorted.and hpairne)

/-- Witness for C1: the repository's own test scenario, declared 1.0.0 with
recorded 0.0.1, 0.0.2, 0.0.3. -/
theorem migrate_unexpected_migrations_witness :
    ∃ l, migrate
        (⟨.ok (), .ok [⟨⟨⟨[0, 0, 3]⟩, ['f', '3']⟩, 3⟩, ⟨⟨⟨[0, 0, 1]⟩, ['f', '1']⟩, 1⟩,
          ⟨⟨⟨[0, 0, 2]⟩, ['f', '2']⟩, 2⟩]⟩ : Conn Unit) ⟨[⟨⟨[1, 0, 0]⟩, ['t']⟩]⟩
        = .error (.UnexpectedMigrations l) ∧
      (∀ m : MigrationInfo, m ∈ l ↔ ∃ r ∈ [⟨⟨⟨[0, 0, 3]⟩, ['f', '3']⟩, 3⟩,
          ⟨⟨⟨[0, 0, 1]⟩, ['f', '1']⟩, 1⟩,
          (⟨⟨⟨[0, 0, 2]⟩, ['f', '2']⟩, 2⟩ : ExecutedMigrationInfo)], r.migration = m ∧
        ∀ a ∈ [(⟨⟨[1, 0, 0]⟩, ['t']⟩ : MigrationInfo)], a.version ≠ m.version) ∧
      l.Pairwise (fun m1 m2 => versionCompare m1.version m2.version = .lt) :=
  migrate_unexpected_migrations _ _ _ rfl rfl (by decide)
    ⟨⟨⟨⟨[0, 0, 3]⟩, ['f', '3']⟩, 3⟩, by simp, by decide⟩

/-! ## Builder last-write-wins (C6) -/

lemma filter_key_nil {K V : Type} [DecidableEq K] {m : List (K × V)} {k : K}
    (h : k ∉ m.map Prod.fst) : m.filter (fun p => decide (p.1 = k)) = [] := by
  rw [List.filter_eq_nil_iff]
  intro p hp
  simp only [decide_eq_true_eq]
  intro he
  apply h
  rw [← he]
  exact List.mem_map_of_mem Prod.fst hp

lemma map_update_eq_self {K V : Type} [DecidableEq K] {m : List (K × V)} {k : K} (v : V)
    (h : k ∉ m.map Prod.fst) : m.map (fun p => if p.1 = k then (k, v) else p) = m := by
  have hcongr : ∀ p ∈ m, (if p.1 = k then (k, v) else p) = id p := by
    intro p hp
    rw [if_neg fun he => h (by rw [← he]; exact List.mem_map_of_mem Prod.fst hp)]
    rfl
  rw [List.map_congr_left hcongr, List.map_id]

lemma filter_key_update {K V : Type} [DecidableEq K] :
    ∀ (m : List (K × V)) (k : K) (v : V), (m.map Prod.fst).Nodup → k ∈ m.map Prod.fst →
      (m.map (fun p => if p.1 = k then (k, v) else p)).filter
        (fun p => decide (p.1 = k)) = [(k, v)]
  | [], k, v, _, hk => by simp at hk
  | p :: rest, k, v, hnd, hk => by
    have hnd2 : (p.1 :: rest.map Prod.fst).Nodup := by
      rw [List.map_cons] at hnd
      exact hnd
    obtain ⟨hp1, hrest⟩ := List.nodup_cons.mp hnd2
    have hk2 : k ∈ p.1 :: rest.map Prod.fst := by
      rw [List.map_cons] at hk
      exact hk
    by_cases hpk : p.1 = k
    · have hknotin : k ∉ rest.map Prod.fst := hpk ▸ hp1
      simp only [List.map_cons, if_pos hpk, List.filter_cons, decide_eq_true_eq]
      rw [map_update_eq_self v hknotin, filter_key_nil hknotin]
      simp
    · have hk3 : k ∈ rest.map Prod.fst := by
        rcases List.mem_cons.mp hk2 with he | h2
        · exact absurd he.symm hpk
        · exact h2
      simp only [List.map_cons, if_neg hpk, List.filter_cons, decide_eq_true_eq]
      rw [filter_key_update rest k v hrest hk3]

lemma filter_key_hmInsert {K V : Type} [DecidableEq K] (m : List (K × V)) (k : K) (v : V)
    (hnd : (m.map Prod.fst).Nodup) :
    (hmInsert m k v).filter (fun p => decide (p.1 = k)) = [(k, v)] := by
  rw [hmInsert]
  by_cases h : m.any (fun p => decide (p.1 = k)) = true
  · rw [if_pos h]
    exact filter_key_update m k v hnd ((any_key_iff m k).mp h)
  · rw [if_neg h, List.filter_append, filter_key_nil
      (fun hx => h ((any_key_iff m k).mpr hx))]
    simp

lemma hmInsert_value_invariant {K V : Type} [DecidableEq K] {Q : K × V → Prop}
    {m : List (K × V)} {k : K} {v : V}
    (hm : ∀ p ∈ m, Q p) (hkv : Q (k, v)) : ∀ p ∈ hmInsert m k v, Q p := by
  intro p hp
  rw [hmInsert] at hp
  by_cases h : m.any (fun p => decide (p.1 = k)) = true
  · rw [if_pos h] at hp
    obtain ⟨q, hq, rfl⟩ := List.mem_map.mp hp
    by_cases hqk : q.1 = k
    · rw [if_pos hqk]
      exact hkv
    · rw [if_neg hqk]
      exact hm q hq
  · rw [if_neg h] at hp
    rcases List.mem_append.mp hp with h' | h'
    · exact hm p h'
    · rw [List.mem_singleton.mp h']
      exact hkv

/-- C6: registering the same version text twice succeeds both times and
leaves exactly one entry for that version in `all_migrations`, named by the
later registration. The hypotheses are the builder's invariants: keys are
distinct and each stored identity's version equals its key. -/
theorem builder_last_registration_wins {γ : Type} (b : MigrationsBuilder γ)
    (s n1 n2 : List Char) (f g : γ) (v : Version)
    (hk : (b.migrations.map Prod.fst).Nodup)
    (hinv : ∀ p ∈ b.migrations, p.2.1.version = p.1)
    (hparse : parseVersion s = some v) :
    ∃ b1 b2, b.add_migration s n1 f = .ok b1 ∧ b1.add_migration s n2 g = .ok b2 ∧
      b2.all_migrations.filter (fun m => decide (m.version = v)) = [⟨v, n2⟩] := by
  refine ⟨⟨hmInsert b.migrations v (⟨v, n1⟩, f)⟩,
    ⟨hmInsert (hmInsert b.migrations v (⟨v, n1⟩, f)) v (⟨v, n2⟩, g)⟩, ?_, ?_, ?_⟩
  · rw [MigrationsBuilder.add_migration, hparse]
  · rw [MigrationsBuilder.add_migration, hparse]
  · have hnd1 : ((hmInsert b.migrations v (⟨v, n1⟩, f)).map Prod.fst).Nodup :=
      hmInsert_keys_nodup v (⟨v, n1⟩, f) hk
    have hinv2 : ∀ p ∈ hmInsert (hmInsert b.migrations v (⟨v, n1⟩, f)) v (⟨v, n2⟩, g),
        p.2.1.version = p.1 :=
      hmInsert_value_invariant (hmInsert_value_invariant hinv rfl) rfl
    rw [MigrationsBuilder.all_migrations, List.filter_map,
      List.filter_congr (fun p hp => by
        simp only [Function.comp_apply]
        rw [hinv2 p hp]),
      filter_key_hmInsert _ v (⟨v, n2⟩, g) hnd1]
    rfl

/-- Witness for C6: an empty builder, version text 1, names a then b. -/
theorem builder_last_registration_wins_witness :
    ∃ b1 b2, (MigrationsBuilder.mk ([] : List (Version × (MigrationInfo × Unit)))).add_migration ['1'] ['a'] () = .ok b1 ∧
      b1.add_migration ['1'] ['b'] () = .ok b2 ∧
      b2.all_migrations.filter (fun m => decide (m.version = ⟨[1]⟩)) = [⟨⟨[1]⟩, ['b']⟩] :=
  builder_last_registration_wins ⟨[]⟩ ['1'] ['a'] ['b'] () () ⟨[1]⟩ (by simp)
    (by simp) (by decide)

end DbMigrate
